import Mathlib

/-
Verification of the state-merge model of the deep-research agent
(`src/SHIVI_AWS_BEDROCK/src/Shivi_DeepResearch_Agent/state_scope.py`).

The source file declares:
  * `AgentState`, a LangGraph state with
      - `messages` / `supervisor_messages` merged by the LangGraph
        `add_messages` reducer (identity-dedup message-log merge),
      - `raw_notes` / `notes` merged by `operator.add` (list concatenation),
      - singleton fields `research_brief : Optional[str]`, `final_report : str`;
  * pydantic schemas `ClarifyWithUser` and `ResearchQuestion` whose fields are
    all required (declared with `Field(description=...)` and no default).

The reducers (`add_messages`) and the pipeline-state composition layer are not
part of the repository source tree; where a definition is reconstructed from
the specification text rather than from source code its doc comment says so.
-/

namespace DeepResearch

/-- A conversational message: opaque identity, role and content
(the shape of `langchain_core.messages.BaseMessage` that the merge rule
inspects). -/
structure Message where
  id : String
  role : String
  content : String
deriving DecidableEq

/-- The identity sequence of a message log. -/
def ids (log : List Message) : List String := log.map Message.id

/-- Whether some entry of the log carries identity `i`. -/
def containsId (log : List Message) (i : String) : Bool :=
  log.any (fun e => e.id = i)

/-- Replace the first entry whose identity matches `m.id` by `m`,
keeping its position; leave every other entry untouched. -/
def replaceFirst (m : Message) : List Message → List Message
  | [] => []
  | e :: rest => if e.id = m.id then m :: rest else e :: replaceFirst m rest

/-- One merge step of the identity-dedup rule: a message whose identity is
already present replaces the matching entry in place, a new identity is
appended at the end. -/
def mergeOne (log : List Message) (m : Message) : List Message :=
  if containsId log m.id then replaceFirst m log else log ++ [m]

/-- Modelled from the spec: the LangGraph `add_messages` reducer attached to
`AgentState.messages` and `AgentState.supervisor_messages` is referenced by
the source but its code is not in the repository tree.  Per the spec (section
4.1): for each incoming message in order, replace in place on an identity
match, append on a new identity, and reject a message with an empty or
malformed identity with a validation error. -/
def add_messages : List Message → List Message → Except String (List Message)
  | log, [] => .ok log
  | log, m :: rest =>
    if m.id = "" then .error "validation error: empty message identity"
    else add_messages (mergeOne log m) rest

/-- The pure part of the merge: fold `mergeOne` over the incoming sequence. -/
def applyAll : List Message → List Message → List Message
  | log, [] => log
  | log, m :: rest => applyAll (mergeOne log m) rest

/-- Faithful embedding of the `operator.add` reducer on `list[str]` fields
(`raw_notes` and `notes` in `AgentState`): list concatenation. -/
def operator_add (existing incoming : List String) : List String :=
  existing ++ incoming

/-- Number of occurrences of a given message in a log. -/
def countMsg (m : Message) (log : List Message) : Nat :=
  (log.filter (fun e => e = m)).length

/-- The `AgentState` aggregate of `state_scope.py`: `messages` (inherited from
`MessagesState`) and `supervisor_messages` are message logs merged by
`add_messages`; `raw_notes` and `notes` are text accumulators merged by
`operator.add`; `research_brief` and `final_report` are singleton fields
(absent until their producing stage runs, then overwritten). -/
structure AgentState where
  messages : List Message
  research_brief : Option String
  supervisor_messages : List Message
  raw_notes : List String
  notes : List String
  final_report : Option String
deriving DecidableEq

/-- Modelled from the spec: the pipeline-state composition layer (spec section
4.5) is not part of the repository source tree (only the `AgentState`
declaration is).  Per the spec, attempting to set `final_report` before
`notes` is populated is an ordering-invariant error, signaled rather than
silently allowed. -/
def setFinalReport (s : AgentState) (r : String) : Except String AgentState :=
  if s.notes = [] then
    .error "ordering-invariant violation: final_report set before notes"
  else .ok { s with final_report := some r }

/-- Modelled from the spec: the pipeline-state composition layer (spec section
4.5) is not part of the repository source tree.  Per the spec, attempting to
set `research_brief` before `conversation_log` (the `messages` field) exists
is an ordering-invariant error, signaled rather than silently allowed. -/
def setResearchBrief (s : AgentState) (b : String) : Except String AgentState :=
  if s.messages = [] then
    .error "ordering-invariant violation: research_brief set before conversation_log"
  else .ok { s with research_brief := some b }

/-- The `ClarifyWithUser` pydantic schema: all three fields are declared with
`Field(description=...)` and no default value, hence required. -/
structure ClarifyWithUser where
  need_clarification : Bool
  question : String
  verification : String
deriving DecidableEq

/-- Pydantic validation of a candidate `ClarifyWithUser` decision object: a
required field that is absent is a validation error; present well-typed
fields are accepted as-is (the schema declares no further constraints). -/
def validateClarifyWithUser (nc : Option Bool) (q v : Option String) :
    Except String ClarifyWithUser :=
  match nc, q, v with
  | some b, some qs, some vs => .ok ⟨b, qs, vs⟩
  | _, _, _ => .error "validation error: field required"

/-- The `ResearchQuestion` pydantic schema: a single required `research_brief`
field of type `str`, declared with no default and no length constraint. -/
structure ResearchQuestion where
  research_brief : String
deriving DecidableEq

/-- Pydantic validation of a candidate `ResearchQuestion` decision object: an
absent `research_brief` is a validation error; any present string (the schema
declares no minimum length) is accepted, including the empty string. -/
def validateResearchQuestion (rb : Option String) :
    Except String ResearchQuestion :=
  match rb with
  | none => .error "validation error: field required"
  | some s => .ok ⟨s⟩

/- ===== basic lemmas about the message-log merge ===== -/

theorem ids_replaceFirst (m : Message) (log : List Message) :
    ids (replaceFirst m log) = ids log := by
  induction log with
  | nil => rfl
  | cons e rest ih =>
    by_cases h : e.id = m.id
    · simp [replaceFirst, h, ids]
    · simp [replaceFirst, h, ids] at ih ⊢
      exact ih

theorem length_replaceFirst (m : Message) (log : List Message) :
    (replaceFirst m log).length = log.length := by
  have h := congrArg List.length (ids_replaceFirst m log)
  simpa [ids] using h

theorem containsId_iff (log : List Message) (i : String) :
    containsId log i = true ↔ i ∈ ids log := by
  unfold containsId ids
  rw [List.any_eq_true]
  simp only [decide_eq_true_eq, List.mem_map]

theorem ids_mergeOne_mem (log : List Message) (m : Message)
    (h : containsId log m.id = true) :
    ids (mergeOne log m) = ids log := by
  simp [mergeOne, h, ids_replaceFirst]

theorem ids_mergeOne_new (log : List Message) (m : Message)
    (h : containsId log m.id = false) :
    ids (mergeOne log m) = ids log ++ [m.id] := by
  simp [mergeOne, h, ids]

theorem mem_ids_mergeOne (log : List Message) (m : Message) :
    m.id ∈ ids (mergeOne log m) := by
  by_cases h : containsId log m.id
  · rw [ids_mergeOne_mem log m h]
    exact (containsId_iff log m.id).mp h
  · rw [ids_mergeOne_new log m (by simpa using h)]
    simp

theorem mem_ids_mergeOne_of_mem (log : List Message) (m : Message) (i : String)
    (h : i ∈ ids log) : i ∈ ids (mergeOne log m) := by
  by_cases hc : containsId log m.id
  · rwa [ids_mergeOne_mem log m hc]
  · rw [ids_mergeOne_new log m (by simpa using hc)]
    exact List.mem_append_left _ h

theorem mem_ids_applyAll (ms : List Message) (log : List Message) (i : String)
    (h : i ∈ ids log) : i ∈ ids (applyAll log ms) := by
  induction ms generalizing log with
  | nil => exact h
  | cons m rest ih =>
    exact ih (mergeOne log m) (mem_ids_mergeOne_of_mem log m i h)

theorem mem_ids_iff (log : List Message) (i : String) :
    i ∈ ids log ↔ ∃ e ∈ log, e.id = i := by
  unfold ids
  simp only [List.mem_map]

theorem containsId_eq_false_iff (log : List Message) (i : String) :
    containsId log i = false ↔ ∀ e ∈ log, e.id ≠ i := by
  constructor
  · intro h e he hei
    have : containsId log i = true :=
      (containsId_iff log i).mpr ((mem_ids_iff log i).mpr ⟨e, he, hei⟩)
    rw [h] at this
    exact Bool.false_ne_true this
  · intro h
    by_contra hne
    have : containsId log i = true := by
      cases hb : containsId log i
      · exact absurd hb hne
      · rfl
    obtain ⟨e, he, hei⟩ := (mem_ids_iff log i).mp ((containsId_iff log i).mp this)
    exact h e he hei

theorem containsId_append (P X : List Message) (i : String) :
    containsId (P ++ X) i = (containsId P i || containsId X i) := by
  simp [containsId, List.any_append]

theorem mem_of_mem_replaceFirst (m e : Message) (log : List Message)
    (h : e ∈ replaceFirst m log) : e ∈ log ∨ e = m := by
  induction log with
  | nil => simp [replaceFirst] at h
  | cons x rest ih =>
    by_cases hx : x.id = m.id
    · simp [replaceFirst, hx] at h
      rcases h with h | h
      · exact Or.inr h
      · exact Or.inl (List.mem_cons_of_mem x h)
    · simp [replaceFirst, hx] at h
      rcases h with h | h
      · exact Or.inl (h ▸ List.mem_cons_self x rest)
      · rcases ih h with h' | h'
        · exact Or.inl (List.mem_cons_of_mem x h')
        · exact Or.inr h'

theorem replaceFirst_append_left (m : Message) (P X : List Message)
    (h : containsId P m.id = true) :
    replaceFirst m (P ++ X) = replaceFirst m P ++ X := by
  induction P with
  | nil => simp [containsId] at h
  | cons e rest ih =>
    by_cases he : e.id = m.id
    · simp [replaceFirst, he]
    · have hrest : containsId rest m.id = true := by
        simpa [containsId, he] using h
      simp [replaceFirst, he, ih hrest]

theorem replaceFirst_append_right (m : Message) (P X : List Message)
    (h : ∀ e ∈ P, e.id ≠ m.id) :
    replaceFirst m (P ++ X) = P ++ replaceFirst m X := by
  induction P with
  | nil => simp
  | cons e rest ih =>
    have he : e.id ≠ m.id := h e (List.mem_cons_self e rest)
    simp only [List.cons_append, replaceFirst, if_neg he, List.append_eq]
    rw [ih (fun x hx => h x (List.mem_cons_of_mem e hx))]

theorem first_occurrence_decomposition (log : List Message) (i : String)
    (h : i ∈ ids log) :
    ∃ P v S, log = P ++ v :: S ∧ v.id = i ∧ ∀ e ∈ P, e.id ≠ i := by
  induction log with
  | nil => simp [ids] at h
  | cons e rest ih =>
    by_cases he : e.id = i
    · exact ⟨[], e, rest, by simp, he, by simp⟩
    · have hrest : i ∈ ids rest := by
        rcases (mem_ids_iff _ _).mp h with ⟨x, hx, hxi⟩
        rcases List.mem_cons.mp hx with rfl | hx'
        · exact absurd hxi he
        · exact (mem_ids_iff _ _).mpr ⟨x, hx', hxi⟩
      obtain ⟨P, v, S, hdec, hv, hP⟩ := ih hrest
      refine ⟨e :: P, v, S, by simp [hdec], hv, ?_⟩
      intro x hx
      rcases List.mem_cons.mp hx with rfl | hx'
      · exact he
      · exact hP x hx'

theorem mergeOne_coupled (P S : List Message) (vL vR m' : Message) (mid : String)
    (hL : vL.id = mid) (hR : vR.id = mid) (hP : ∀ e ∈ P, e.id ≠ mid)
    (hm : m'.id ≠ mid) :
    ∃ P' S', mergeOne (P ++ vL :: S) m' = P' ++ vL :: S' ∧
      mergeOne (P ++ vR :: S) m' = P' ++ vR :: S' ∧
      (∀ e ∈ P', e.id ≠ mid) := by
  have hv : ∀ v : Message, v.id = mid →
      containsId (P ++ v :: S) m'.id = (containsId P m'.id || containsId S m'.id) := by
    intro v hvid
    rw [containsId_append]
    have : containsId (v :: S) m'.id = containsId S m'.id := by
      have : ¬ (v.id = m'.id) := fun hc => hm (hc ▸ hvid.symm ▸ rfl)
      simp [containsId, fun hc : v.id = m'.id => hm (hvid ▸ hc ▸ rfl)]
      intro hc
      exact absurd (hc.symm.trans hvid) hm
    rw [this]
  by_cases hcP : containsId P m'.id = true
  · refine ⟨replaceFirst m' P, S, ?_, ?_, ?_⟩
    · rw [mergeOne, if_pos (by rw [hv vL hL, hcP]; rfl),
        replaceFirst_append_left m' P _ hcP]
    · rw [mergeOne, if_pos (by rw [hv vR hR, hcP]; rfl),
        replaceFirst_append_left m' P _ hcP]
    · intro e he
      rcases mem_of_mem_replaceFirst m' e P he with h' | h'
      · exact hP e h'
      · exact h' ▸ hm
  · have hcP' : containsId P m'.id = false := by
      cases hb : containsId P m'.id
      · rfl
      · exact absurd hb hcP
    have hPfree : ∀ e ∈ P, e.id ≠ m'.id := (containsId_eq_false_iff P m'.id).mp hcP'
    by_cases hcS : containsId S m'.id = true
    · refine ⟨P, replaceFirst m' S, ?_, ?_, hP⟩
      · rw [mergeOne, if_pos (by rw [hv vL hL, hcP', hcS]; rfl),
          replaceFirst_append_right m' P _ hPfree]
        have hvm : ¬ (vL.id = m'.id) := fun hc => hm (hc.symm.trans hL)
        simp only [replaceFirst, if_neg hvm]
      · rw [mergeOne, if_pos (by rw [hv vR hR, hcP', hcS]; rfl),
          replaceFirst_append_right m' P _ hPfree]
        have hvm : ¬ (vR.id = m'.id) := fun hc => hm (hc.symm.trans hR)
        simp only [replaceFirst, if_neg hvm]
    · have hcS' : containsId S m'.id = false := by
        cases hb : containsId S m'.id
        · rfl
        · exact absurd hb hcS
      refine ⟨P, S ++ [m'], ?_, ?_, hP⟩
      · rw [mergeOne, if_neg (by rw [hv vL hL, hcP', hcS']; simp)]
        simp
      · rw [mergeOne, if_neg (by rw [hv vR hR, hcP', hcS']; simp)]
        simp

theorem mergeOne_converge (P S : List Message) (v m' : Message) (mid : String)
    (hv : v.id = mid) (hP : ∀ e ∈ P, e.id ≠ mid) (hm : m'.id = mid) :
    mergeOne (P ++ v :: S) m' = P ++ m' :: S := by
  have hc : containsId (P ++ v :: S) m'.id = true := by
    apply (containsId_iff _ _).mpr
    apply (mem_ids_iff _ _).mpr
    exact ⟨v, by simp, hv.trans hm.symm⟩
  have hPfree : ∀ e ∈ P, e.id ≠ m'.id := fun e he hc' => hP e he (hc'.trans hm)
  rw [mergeOne, if_pos hc, replaceFirst_append_right m' P _ hPfree]
  have hvm : v.id = m'.id := hv.trans hm.symm
  simp only [replaceFirst, if_pos hvm]

theorem applyAll_coupled (rest : List Message) :
    ∀ (P S : List Message) (vL vR : Message) (mid : String), vL.id = mid →
    vR.id = mid → (∀ e ∈ P, e.id ≠ mid) →
    ((∀ m' ∈ rest, m'.id ≠ mid) → vL = vR) →
    applyAll (P ++ vL :: S) rest = applyAll (P ++ vR :: S) rest := by
  induction rest with
  | nil =>
    intro P S vL vR mid hL hR hP hno
    have : vL = vR := hno (by simp)
    rw [this]
  | cons m' rest' ih =>
    intro P S vL vR mid hL hR hP hno
    by_cases hm : m'.id = mid
    · have h1 := mergeOne_converge P S vL m' mid hL hP hm
      have h2 := mergeOne_converge P S vR m' mid hR hP hm
      show applyAll (mergeOne (P ++ vL :: S) m') rest' =
        applyAll (mergeOne (P ++ vR :: S) m') rest'
      rw [h1, h2]
    · obtain ⟨P', S', e1, e2, hP'⟩ :=
        mergeOne_coupled P S vL vR m' mid hL hR hP hm
      show applyAll (mergeOne (P ++ vL :: S) m') rest' =
        applyAll (mergeOne (P ++ vR :: S) m') rest'
      rw [e1, e2]
      apply ih P' S' vL vR mid hL hR hP'
      intro hno'
      apply hno
      intro x hx
      rcases List.mem_cons.mp hx with rfl | hx'
      · exact hm
      · exact hno' x hx'

theorem applyAll_persist (rest : List Message) :
    ∀ (P S : List Message) (m : Message), (∀ e ∈ P, e.id ≠ m.id) →
    (∀ m' ∈ rest, m'.id ≠ m.id) →
    ∃ P' S', applyAll (P ++ m :: S) rest = P' ++ m :: S' ∧
      ∀ e ∈ P', e.id ≠ m.id := by
  induction rest with
  | nil =>
    intro P S m hP _
    exact ⟨P, S, rfl, hP⟩
  | cons m' rest' ih =>
    intro P S m hP hno
    have hm : m'.id ≠ m.id := hno m' (by simp)
    obtain ⟨P', S', e1, _, hP'⟩ :=
      mergeOne_coupled P S m m m' m.id rfl rfl hP hm
    show ∃ Q T, applyAll (mergeOne (P ++ m :: S) m') rest' = Q ++ m :: T ∧
      ∀ e ∈ Q, e.id ≠ m.id
    rw [e1]
    exact ih P' S' m hP' (fun x hx => hno x (List.mem_cons_of_mem m' hx))

theorem mergeOne_holds (X : List Message) (m : Message) :
    ∃ P S, mergeOne X m = P ++ m :: S ∧ ∀ e ∈ P, e.id ≠ m.id := by
  by_cases hc : containsId X m.id = true
  · obtain ⟨P, v, S, hdec, hv, hP⟩ :=
      first_occurrence_decomposition X m.id ((containsId_iff X m.id).mp hc)
    refine ⟨P, S, ?_, hP⟩
    rw [hdec]
    exact mergeOne_converge P S v m m.id hv hP rfl
  · have hc' : containsId X m.id = false := by
      cases hb : containsId X m.id
      · rfl
      · exact absurd hb hc
    refine ⟨X, [], ?_, (containsId_eq_false_iff X m.id).mp hc'⟩
    rw [mergeOne, if_neg (by rw [hc']; simp)]

theorem applyAll_idem (ms : List Message) :
    ∀ L : List Message, applyAll (applyAll L ms) ms = applyAll L ms := by
  induction ms with
  | nil => intro L; rfl
  | cons m rest ih =>
    intro L
    show applyAll (mergeOne (applyAll (mergeOne L m) rest) m) rest =
      applyAll (mergeOne L m) rest
    set X := mergeOne L m with hX
    set R := applyAll X rest with hR
    have hIH : applyAll R rest = R := by
      rw [hR]
      exact ih X
    obtain ⟨P, S, hdecX, hPX⟩ := mergeOne_holds L m
    rw [← hX] at hdecX
    by_cases hw : ∃ m' ∈ rest, m'.id = m.id
    · have hmemX : m.id ∈ ids X := by
        rw [hX]
        exact mem_ids_mergeOne L m
      have hmemR : m.id ∈ ids R := by
        rw [hR]
        exact mem_ids_applyAll rest X m.id hmemX
      obtain ⟨P', v, S', hdecR, hv, hP'⟩ :=
        first_occurrence_decomposition R m.id hmemR
      have hmerge : mergeOne R m = P' ++ m :: S' := by
        rw [hdecR]
        exact mergeOne_converge P' S' v m m.id hv hP' rfl
      rw [hmerge]
      calc applyAll (P' ++ m :: S') rest
          = applyAll (P' ++ v :: S') rest := by
            apply applyAll_coupled rest P' S' m v m.id rfl hv hP'
            intro hno
            obtain ⟨m', hm', hid⟩ := hw
            exact absurd hid (hno m' hm')
        _ = applyAll R rest := by rw [← hdecR]
        _ = R := hIH
    · have hno : ∀ m' ∈ rest, m'.id ≠ m.id := by
        intro x hx hxid
        exact hw ⟨x, hx, hxid⟩
      obtain ⟨P', S', hdecR, hP'⟩ := by
        have := applyAll_persist rest P S m hPX hno
        rwa [← hdecX, ← hR] at this
      have hmerge : mergeOne R m = R := by
        rw [hdecR]
        rw [mergeOne_converge P' S' m m m.id rfl hP' rfl]
      rw [hmerge]
      exact hIH

theorem add_messages_ok_iff (ms : List Message) :
    ∀ log log' : List Message, add_messages log ms = .ok log' ↔
      ((∀ m ∈ ms, m.id ≠ "") ∧ log' = applyAll log ms) := by
  induction ms with
  | nil =>
    intro log log'
    constructor
    · intro h
      refine ⟨by simp, ?_⟩
      have : Except.ok (ε := String) log = Except.ok log' := h
      cases this
      rfl
    · rintro ⟨_, rfl⟩
      rfl
  | cons m rest ih =>
    intro log log'
    constructor
    · intro h
      by_cases hid : m.id = ""
      · rw [add_messages, if_pos hid] at h
        cases h
      · rw [add_messages, if_neg hid] at h
        obtain ⟨hall, heq⟩ := (ih (mergeOne log m) log').mp h
        refine ⟨?_, heq⟩
        intro x hx
        rcases List.mem_cons.mp hx with rfl | hx'
        · exact hid
        · exact hall x hx'
    · rintro ⟨hall, rfl⟩
      have hid : m.id ≠ "" := hall m (by simp)
      rw [add_messages, if_neg hid]
      exact (ih (mergeOne log m) _).mpr
        ⟨fun x hx => hall x (List.mem_cons_of_mem m hx), rfl⟩

theorem add_messages_append (ms1 ms2 : List Message) :
    ∀ log, add_messages log (ms1 ++ ms2) =
      (add_messages log ms1).bind (fun L => add_messages L ms2) := by
  induction ms1 with
  | nil =>
    intro log
    rfl
  | cons m rest ih =>
    intro log
    simp only [List.cons_append, add_messages]
    by_cases hid : m.id = ""
    · rw [if_pos hid, if_pos hid]
      rfl
    · rw [if_neg hid, if_neg hid]
      exact ih (mergeOne log m)

theorem add_messages_single (log : List Message) (m : Message) (h : m.id ≠ "") :
    add_messages log [m] = .ok (mergeOne log m) := by
  rw [add_messages, if_neg h]
  rfl

theorem mergeOne_append_new (log : List Message) (m : Message)
    (h : containsId log m.id = false) : mergeOne log m = log ++ [m] := by
  rw [mergeOne, if_neg (by rw [h]; simp)]

theorem countMsg_append (m : Message) (X Y : List Message) :
    countMsg m (X ++ Y) = countMsg m X + countMsg m Y := by
  simp [countMsg, List.filter_append]

theorem countMsg_zero (m : Message) (X : List Message)
    (h : ∀ e ∈ X, e ≠ m) : countMsg m X = 0 := by
  unfold countMsg
  rw [List.filter_eq_nil_iff.mpr (fun e he => by simp [h e he])]
  rfl

theorem countMsg_pair_fst (a b : Message) (h : b ≠ a) :
    countMsg a [a, b] = 1 := by
  simp [countMsg, List.filter, h]

theorem countMsg_pair_snd (a b : Message) (h : b ≠ a) :
    countMsg a [b, a] = 1 := by
  simp [countMsg, List.filter, h]

theorem not_mem_of_containsId_false (log : List Message) (m : Message)
    (h : containsId log m.id = false) : ∀ e ∈ log, e ≠ m := by
  intro e he heq
  have := (containsId_eq_false_iff log m.id).mp h e he
  exact this (heq ▸ rfl)

theorem ne_of_id_ne (a b : Message) (h : a.id ≠ b.id) : b ≠ a := by
  intro heq
  exact h (heq ▸ rfl)

theorem nodup_ids_mergeOne (log : List Message) (m : Message)
    (h : (ids log).Nodup) : (ids (mergeOne log m)).Nodup := by
  by_cases hc : containsId log m.id = true
  · rwa [ids_mergeOne_mem log m hc]
  · have hc' : containsId log m.id = false := by
      cases hb : containsId log m.id
      · rfl
      · exact absurd hb hc
    rw [ids_mergeOne_new log m hc']
    rw [List.nodup_append]
    refine ⟨h, List.nodup_singleton _, ?_⟩
    intro x hx hx'
    have hxm : x = m.id := by simpa using hx'
    have : containsId log m.id = true :=
      (containsId_iff log m.id).mpr (hxm ▸ hx)
    rw [hc'] at this
    exact Bool.false_ne_true this

theorem nodup_ids_applyAll (ms : List Message) :
    ∀ log, (ids log).Nodup → (ids (applyAll log ms)).Nodup := by
  induction ms with
  | nil => intro log h; exact h
  | cons m rest ih =>
    intro log h
    exact ih (mergeOne log m) (nodup_ids_mergeOne log m h)

/-- C1: the message-log merge processes incoming messages in order (merging a
concatenated incoming sequence equals merging its two parts one after the
other); a message whose identity matches an existing entry (at its first
occurrence, decomposed as `P ++ v :: S`) replaces that entry in place at its
original position; a message with a new identity is appended at the end. -/
theorem claim_C1_merge_in_order (log ms1 ms2 P S : List Message) (v m n : Message)
    (hdec : log = P ++ v :: S) (hv : v.id = m.id) (hP : ∀ e ∈ P, e.id ≠ m.id)
    (hm : m.id ≠ "") (hn : n.id ≠ "") (hnew : containsId log n.id = false) :
    add_messages log (ms1 ++ ms2) =
      (add_messages log ms1).bind (fun L => add_messages L ms2) ∧
    add_messages log [m] = .ok (P ++ m :: S) ∧
    add_messages log [n] = .ok (log ++ [n]) := by
  refine ⟨add_messages_append ms1 ms2 log, ?_, ?_⟩
  · rw [add_messages_single log m hm, hdec,
      mergeOne_converge P S v m m.id hv hP rfl]
  · rw [add_messages_single log n hn, mergeOne_append_new log n hnew]

/-- Witness for C1 at a concrete log and concrete messages. -/
theorem claim_C1_witness :
    add_messages [⟨"a", "user", "hi"⟩]
        ([⟨"c", "user", "x"⟩] ++ [⟨"d", "user", "y"⟩]) =
      (add_messages [⟨"a", "user", "hi"⟩] [⟨"c", "user", "x"⟩]).bind
        (fun L => add_messages L [⟨"d", "user", "y"⟩]) ∧
    add_messages [⟨"a", "user", "hi"⟩] [⟨"a", "user", "hello"⟩] =
      .ok ([] ++ ⟨"a", "user", "hello"⟩ :: []) ∧
    add_messages [⟨"a", "user", "hi"⟩] [⟨"b", "assistant", "yo"⟩] =
      .ok ([⟨"a", "user", "hi"⟩] ++ [⟨"b", "assistant", "yo"⟩]) :=
  claim_C1_merge_in_order [⟨"a", "user", "hi"⟩] [⟨"c", "user", "x"⟩]
    [⟨"d", "user", "y"⟩] [] [] ⟨"a", "user", "hi"⟩ ⟨"a", "user", "hello"⟩
    ⟨"b", "assistant", "yo"⟩ rfl rfl (by simp) (by decide) (by decide) (by decide)

/-- C2: the text-accumulator merge (`operator.add` on `raw_notes`) returns the
existing sequence followed by the incoming one, preserving order and never
deduplicating: merging `[a]` then `[b]` yields `E ++ [a, b]`, merging `[a]`
twice yields `E ++ [a, a]` and differs from merging it once (the operation is
non-idempotent); the existing prefix and incoming suffix are both preserved
verbatim. -/
theorem claim_C2_accumulator_concat (E C : List String) (a b : String) :
    operator_add E C = E ++ C ∧
    operator_add (operator_add E [a]) [b] = E ++ [a, b] ∧
    operator_add (operator_add E [a]) [a] = E ++ [a, a] ∧
    operator_add (operator_add E [a]) [a] ≠ operator_add E [a] ∧
    (operator_add E C).take E.length = E ∧
    (operator_add E C).drop E.length = C := by
  refine ⟨rfl, ?_, ?_, ?_, ?_, ?_⟩
  · simp [operator_add]
  · simp [operator_add]
  · intro h
    have hlen := congrArg List.length h
    simp [operator_add] at hlen
  · exact List.take_left E C
  · exact List.drop_left E C

/-- Witness for C2: non-idempotence at a concrete accumulator. -/
theorem claim_C2_witness :
    operator_add (operator_add ["x"] ["a"]) ["a"] ≠ operator_add ["x"] ["a"] :=
  (claim_C2_accumulator_concat ["x"] ["y"] "a" "b").2.2.2.1

/-- C3: merging a message whose identity is already present (first occurrence
decomposed as `P ++ v :: S`) updates the matching entry in place without
changing the log length or the identity sequence (hence the entry position),
and re-applying an already-applied incoming sequence returns the log
unchanged. -/
theorem claim_C3_merge_idempotent (log ms log' P S : List Message) (v m : Message)
    (hdec : log = P ++ v :: S) (hv : v.id = m.id) (hP : ∀ e ∈ P, e.id ≠ m.id)
    (hm : m.id ≠ "") (h : add_messages log ms = .ok log') :
    (add_messages log [m] = .ok (P ++ m :: S) ∧
      (P ++ m :: S).length = log.length ∧
      ids (P ++ m :: S) = ids log) ∧
    add_messages log' ms = .ok log' := by
  constructor
  · refine ⟨?_, ?_, ?_⟩
    · rw [add_messages_single log m hm, hdec,
        mergeOne_converge P S v m m.id hv hP rfl]
    · rw [hdec]
      simp
    · rw [hdec]
      simp [ids, hv]
  · obtain ⟨hall, rfl⟩ := (add_messages_ok_iff ms log log').mp h
    exact (add_messages_ok_iff ms (applyAll log ms) (applyAll log ms)).mpr
      ⟨hall, (applyAll_idem ms log).symm⟩

/-- Witness for C3 at a concrete log, update message and incoming sequence. -/
theorem claim_C3_witness :
    (add_messages [⟨"a", "user", "hi"⟩] [⟨"a", "user", "hello"⟩] =
        .ok ([] ++ (⟨"a", "user", "hello"⟩ : Message) :: []) ∧
      (([] : List Message) ++ (⟨"a", "user", "hello"⟩ : Message) :: []).length =
        ([⟨"a", "user", "hi"⟩] : List Message).length ∧
      ids ([] ++ (⟨"a", "user", "hello"⟩ : Message) :: []) =
        ids [⟨"a", "user", "hi"⟩]) ∧
    add_messages [⟨"a", "user", "hi"⟩, ⟨"b", "user", "new"⟩] [⟨"b", "user", "new"⟩] =
      .ok [⟨"a", "user", "hi"⟩, ⟨"b", "user", "new"⟩] :=
  claim_C3_merge_idempotent [⟨"a", "user", "hi"⟩] [⟨"b", "user", "new"⟩]
    [⟨"a", "user", "hi"⟩, ⟨"b", "user", "new"⟩] [] [] ⟨"a", "user", "hi"⟩
    ⟨"a", "user", "hello"⟩ rfl rfl (by simp) (by decide) rfl

/-- C4: two single-message contributions with distinct fresh identities,
applied in either order, each land exactly once, ordered by the order of the
two merge calls. -/
theorem claim_C4_pairwise_order (log : List Message) (a b : Message)
    (ha : a.id ≠ "") (hb : b.id ≠ "") (hab : a.id ≠ b.id)
    (hna : containsId log a.id = false) (hnb : containsId log b.id = false) :
    ((add_messages log [a]).bind (fun L => add_messages L [b]) =
      .ok (log ++ [a, b])) ∧
    ((add_messages log [b]).bind (fun L => add_messages L [a]) =
      .ok (log ++ [b, a])) ∧
    countMsg a (log ++ [a, b]) = 1 ∧ countMsg b (log ++ [a, b]) = 1 ∧
    countMsg a (log ++ [b, a]) = 1 ∧ countMsg b (log ++ [b, a]) = 1 := by
  have hba : b.id ≠ a.id := fun h => hab h.symm
  have hcab : containsId (log ++ [a]) b.id = false := by
    rw [containsId_append, hnb]
    simp [containsId, hba]
    intro hc
    exact absurd hc.symm hba
  have hcba : containsId (log ++ [b]) a.id = false := by
    rw [containsId_append, hna]
    simp [containsId, hab]
    intro hc
    exact absurd hc.symm hab
  have hane : ∀ e ∈ log, e ≠ a := not_mem_of_containsId_false log a hna
  have hbne : ∀ e ∈ log, e ≠ b := not_mem_of_containsId_false log b hnb
  refine ⟨?_, ?_, ?_, ?_, ?_, ?_⟩
  · rw [add_messages_single log a ha, mergeOne_append_new log a hna]
    show add_messages (log ++ [a]) [b] = _
    rw [add_messages_single _ b hb, mergeOne_append_new _ b hcab,
      List.append_assoc]
    rfl
  · rw [add_messages_single log b hb, mergeOne_append_new log b hnb]
    show add_messages (log ++ [b]) [a] = _
    rw [add_messages_single _ a ha, mergeOne_append_new _ a hcba,
      List.append_assoc]
    rfl
  · rw [countMsg_append, countMsg_zero a log hane,
      countMsg_pair_fst a b (ne_of_id_ne a b hab)]
  · rw [countMsg_append, countMsg_zero b log hbne,
      countMsg_pair_snd b a (ne_of_id_ne b a hba)]
  · rw [countMsg_append, countMsg_zero a log hane,
      countMsg_pair_snd a b (ne_of_id_ne a b hab)]
  · rw [countMsg_append, countMsg_zero b log hbne,
      countMsg_pair_fst b a (ne_of_id_ne b a hba)]

/-- Witness for C4 at the empty log and two concrete fresh messages. -/
theorem claim_C4_witness :
    ((add_messages [] [⟨"a", "user", "1"⟩]).bind
        (fun L => add_messages L [⟨"b", "user", "2"⟩]) =
      .ok ([] ++ [⟨"a", "user", "1"⟩, ⟨"b", "user", "2"⟩])) ∧
    ((add_messages [] [⟨"b", "user", "2"⟩]).bind
        (fun L => add_messages L [⟨"a", "user", "1"⟩]) =
      .ok ([] ++ [⟨"b", "user", "2"⟩, ⟨"a", "user", "1"⟩])) ∧
    countMsg ⟨"a", "user", "1"⟩ ([] ++ [⟨"a", "user", "1"⟩, ⟨"b", "user", "2"⟩]) = 1 ∧
    countMsg ⟨"b", "user", "2"⟩ ([] ++ [⟨"a", "user", "1"⟩, ⟨"b", "user", "2"⟩]) = 1 ∧
    countMsg ⟨"a", "user", "1"⟩ ([] ++ [⟨"b", "user", "2"⟩, ⟨"a", "user", "1"⟩]) = 1 ∧
    countMsg ⟨"b", "user", "2"⟩ ([] ++ [⟨"b", "user", "2"⟩, ⟨"a", "user", "1"⟩]) = 1 :=
  claim_C4_pairwise_order [] ⟨"a", "user", "1"⟩ ⟨"b", "user", "2"⟩
    (by decide) (by decide) (by decide) (by decide) (by decide)

/-- C5: identity uniqueness is an invariant of the message-log merge: if all
identities of the log are pairwise distinct, they still are after merging any
incoming sequence. -/
theorem claim_C5_unique_ids_invariant (log ms log' : List Message)
    (hnd : (ids log).Nodup) (h : add_messages log ms = .ok log') :
    (ids log').Nodup := by
  obtain ⟨_, rfl⟩ := (add_messages_ok_iff ms log log').mp h
  exact nodup_ids_applyAll ms log hnd

/-- Witness for C5 at a concrete log and incoming sequence. -/
theorem claim_C5_witness :
    (ids [⟨"a", "user", "1"⟩, ⟨"b", "user", "2"⟩]).Nodup :=
  claim_C5_unique_ids_invariant [⟨"a", "user", "1"⟩] [⟨"b", "user", "2"⟩]
    [⟨"a", "user", "1"⟩, ⟨"b", "user", "2"⟩] (by decide) rfl

/-- C6: the modelled pipeline-state composition layer signals the
dependency-ordering invariant as an error: setting `final_report` while
`notes` is empty fails, and setting `research_brief` while the conversation
log is empty fails. -/
theorem claim_C6_ordering_errors (s : AgentState) (r b : String)
    (hnotes : s.notes = []) (hmsgs : s.messages = []) :
    (∃ e, setFinalReport s r = .error e) ∧
    (∃ e, setResearchBrief s b = .error e) := by
  constructor
  · exact ⟨_, by rw [setFinalReport, if_pos hnotes]⟩
  · exact ⟨_, by rw [setResearchBrief, if_pos hmsgs]⟩

/-- Witness for C6 at the empty session state. -/
theorem claim_C6_witness :
    (∃ e, setFinalReport ⟨[], none, [], [], [], none⟩ "report" = .error e) ∧
    (∃ e, setResearchBrief ⟨[], none, [], [], [], none⟩ "brief" = .error e) :=
  claim_C6_ordering_errors ⟨[], none, [], [], [], none⟩ "report" "brief" rfl rfl

/-- C7, counterexample to the claim as stated: the `ResearchQuestion` schema
declares `research_brief : str` with no minimum length, so a present but
empty `research_brief` passes validation, contradicting the claim that
validation fails exactly when `research_brief` is empty or absent. -/
theorem claim_C7_counterexample :
    validateResearchQuestion (some "") = .ok { research_brief := "" } := rfl

/-- C7, amended: `ResearchQuestion` validation fails exactly when
`research_brief` is absent; any present string, including the empty one, is
accepted. -/
theorem claim_C7_amended_validation (rb : Option String) :
    (validateResearchQuestion rb).isOk = rb.isSome := by
  cases rb <;> rfl

/-- C8: an incoming sequence containing a message with an empty (malformed)
identity is rejected by the message-log merge with a validation error. -/
theorem claim_C8_reject_empty_identity (ms : List Message) :
    ∀ log, (∃ m ∈ ms, m.id = "") → ∃ e, add_messages log ms = .error e := by
  induction ms with
  | nil =>
    intro log h
    simp at h
  | cons m rest ih =>
    intro log h
    by_cases hid : m.id = ""
    · exact ⟨_, by rw [add_messages, if_pos hid]⟩
    · have hrest : ∃ x ∈ rest, x.id = "" := by
        obtain ⟨x, hx, hxid⟩ := h
        rcases List.mem_cons.mp hx with rfl | hx'
        · exact absurd hxid hid
        · exact ⟨x, hx', hxid⟩
      obtain ⟨e, he⟩ := ih (mergeOne log m) hrest
      exact ⟨e, by rw [add_messages, if_neg hid]; exact he⟩

/-- Witness for C8: a concrete incoming message with an empty identity is
rejected. -/
theorem claim_C8_witness :
    ∃ e, add_messages [] [⟨"", "user", "anon"⟩] = .error e :=
  claim_C8_reject_empty_identity [⟨"", "user", "anon"⟩] []
    ⟨⟨"", "user", "anon"⟩, by simp, rfl⟩

/-- C9: `ClarifyWithUser` validation succeeds only when `question` and
`verification` are both present, and a candidate decision object missing
either of them is rejected. -/
theorem claim_C9_clarify_required_fields (nc : Option Bool) (q v : Option String) :
    (∀ c, validateClarifyWithUser nc q v = .ok c →
      q.isSome = true ∧ v.isSome = true) ∧
    (q = none ∨ v = none → ∃ e, validateClarifyWithUser nc q v = .error e) := by
  constructor
  · intro c h
    cases nc <;> cases q <;> cases v <;>
      simp [validateClarifyWithUser] at h ⊢
  · intro hqv
    cases q with
    | none => cases nc <;> cases v <;> exact ⟨_, rfl⟩
    | some qs =>
      cases v with
      | none => cases nc <;> exact ⟨_, rfl⟩
      | some vs => rcases hqv with h | h <;> simp at h

/-- Witness for C9: a decision object missing `question` is rejected. -/
theorem claim_C9_witness :
    ∃ e, validateClarifyWithUser (some true) none (some "ok") = .error e :=
  (claim_C9_clarify_required_fields (some true) none (some "ok")).2 (Or.inl rfl)

/-- C10: the text-accumulator merge has the empty contribution as a right
identity and is associative over contributions: merging `C1` then `C2` equals
merging the single concatenated contribution `C1 ++ C2`. -/
theorem claim_C10_accumulator_identity_assoc (E C1 C2 : List String) :
    operator_add E [] = E ∧
    operator_add (operator_add E C1) C2 = operator_add E (C1 ++ C2) := by
  constructor
  · simp [operator_add]
  · simp [operator_add]

end DeepResearch
